import Mathlib

-- Verification development for the 1G1R ROM set generator (generate.py).
-- The Python source is shallowly embedded: pure functions become Lean
-- functions over `String`/`List`, the mutable region registry is threaded
-- as explicit state, dictionaries become insertion-ordered association
-- lists, and regular expressions over the fixed vocabulary of tag patterns
-- are unfolded into explicit character-level scanners.

namespace Gen

-- ### Basic character/string plumbing

/-- Lowercase a string character-wise (model of Python `str.lower` on the
ASCII names this program handles). -/
def lowerStr (s : String) : String := String.mk (s.data.map Char.toLower)

/-- Uppercase a string character-wise (model of Python `str.upper`). -/
def upperStr (s : String) : String := String.mk (s.data.map Char.toUpper)

/-- Model of Python `str.strip`: drop whitespace from both ends. -/
def stripChars (cs : List Char) : List Char :=
  ((cs.dropWhile Char.isWhitespace).reverse.dropWhile Char.isWhitespace).reverse

/-- Model of Python `str.split(sep)` for a one-character separator. -/
def splitChar (sep : Char) : List Char → List (List Char)
  | [] => [[]]
  | c :: cs =>
    let r := splitChar sep cs
    if c = sep then [] :: r
    else
      match r with
      | [] => [[c]]
      | g :: gs => (c :: g) :: gs

/-- Flatten a map over a list (plumbing for the nested loops of the source). -/
def listFlat {α β : Type} (f : α → List β) : List α → List β
  | [] => []
  | a :: as => f a ++ listFlat f as

/-- Substring test: `pat` occurs somewhere inside `s` (model of `re.search`
on a literal pattern). -/
def containsSub (pat : List Char) (s : List Char) : Bool :=
  s.tails.any (fun t => pat.isPrefixOf t)

/-- Case-insensitive substring search of a literal (lowercase) pattern,
modelling `re.compile(re.escape(lit), re.IGNORECASE).search(name)`. -/
def hasSub (pat : String) (name : String) : Bool :=
  containsSub pat.data (lowerStr name).data

-- ### The parenthesized-section scanner
-- Models `sections_regex = re.compile(r'\(([^()]+)\)')` and `finditer`:
-- the contents of innermost, non-empty parenthesized groups, left to right.

/-- Scanner state: `none` outside a group, `some acc` inside one. -/
def sectionsAux : List Char → Option (List Char) → List (List Char)
  | [], _ => []
  | c :: cs, st =>
    if c = '(' then sectionsAux cs (some [])
    else if c = ')' then
      match st with
      | some (x :: xs) => (x :: xs) :: sectionsAux cs none
      | _ => sectionsAux cs none
    else
      match st with
      | some acc => sectionsAux cs (some (acc ++ [c]))
      | none => sectionsAux cs none

/-- All innermost parenthesized segment contents of a name, in order. -/
def sections (s : String) : List (List Char) := sectionsAux s.data none

-- ### Tag-pattern models (the fixed regex vocabulary of generate.py)

/-- A character allowed in a captured tag token: the class `[a-z0-9.]`
under `re.IGNORECASE`. -/
def isTagChar (c : Char) : Bool := c.isAlpha || c.isDigit || c = '.'

/-- Case-insensitive literal head test. -/
def startsWithCI (w : List Char) (cs : List Char) : Bool :=
  (w.map Char.toLower).isPrefixOf (cs.map Char.toLower)

/-- Model of `\s*([a-z0-9.]+)` anchored to the end of a section: leading
whitespace dropped, then a non-empty token of tag characters filling the
rest of the section.  Captures the token with its original case. -/
def tagToken (cs : List Char) : Option String :=
  let t := cs.dropWhile Char.isWhitespace
  if t.isEmpty then none
  else if t.all isTagChar then some (String.mk t) else none

/-- A section matching `rev_regex = \(Rev\s*([a-z0-9.]+)\)` (the section is
the part between the parentheses), returning the captured token. -/
def revSection (cs : List Char) : Option String :=
  if startsWithCI "rev".data cs then tagToken (cs.drop 3) else none

/-- A section matching `version_regex = \(v\s*([a-z0-9.]+)\)`. -/
def verSection (cs : List Char) : Option String :=
  if startsWithCI "v".data cs then tagToken (cs.drop 1) else none

/-- `parse_revision`: first revision tag in the name, default `"0"`
(`get_or_default(rev_regex.search(name), '0')`). -/
def parse_revision (name : String) : String :=
  ((sections name).findSome? revSection).getD "0"

/-- `parse_version`: first version tag in the name, default `"0"`. -/
def parse_version (name : String) : String :=
  ((sections name).findSome? verSection).getD "0"

/-- A section matching one of the prerelease regexes
`\(Word(?:\s*([a-z0-9.]+))?\)`: `some none` is a match without a captured
version, `some (some t)` a match capturing `t`. -/
def preSection (w : String) (cs : List Char) : Option (Option String) :=
  if startsWithCI w.data cs then
    let rest := cs.drop w.length
    if rest.isEmpty then some none
    else
      match tagToken rest with
      | some t => some (some t)
      | none => none
  else none

/-- `word_regex.search(name)` for the four prerelease words. -/
def preMatch (w : String) (name : String) : Option (Option String) :=
  (sections name).findSome? (preSection w)

/-- `NOT_PRERELEASE = "Z"`. -/
def NOT_PRERELEASE : String := "Z"

/-- `UNSELECTED = 10000`. -/
def UNSELECTED : Int := 10000

/-- `parse_prerelease`: captured version of a prerelease match, the `"Z"`
sentinel when the tag carries no version or there is no match. -/
def parse_prerelease (m : Option (Option String)) : String :=
  match m with
  | some (some v) => v
  | _ => NOT_PRERELEASE

/-- `bad_regex = re.escape('[b]')` searched case-insensitively. -/
def hasBad (name : String) : Bool := hasSub "[b]" name

/-- `bios_regex = re.escape('[BIOS]')`. -/
def hasBios (name : String) : Bool := hasSub "[bios]" name

/-- `unl_regex = re.escape('(Unl)')`. -/
def hasUnl (name : String) : Bool := hasSub "(unl)" name

/-- `pirate_regex = re.escape('(Pirate)')`. -/
def hasPirate (name : String) : Bool := hasSub "(pirate)" name

/-- `promo_regex = re.escape('(Promo)')`. -/
def hasPromo (name : String) : Bool := hasSub "(promo)" name

/-- A section matching `program_regex = \((?:Test\s*)?Program\)`. -/
def isProgramSection (cs : List Char) : Bool :=
  let l := cs.map Char.toLower
  l = "program".data ||
    ("test".data.isPrefixOf l && (l.drop 4).dropWhile Char.isWhitespace = "program".data)

/-- `program_regex.search(name)`. -/
def hasProgram (name : String) : Bool := (sections name).any isProgramSection

/-- A section matching `enhancement_chip_regex = \(Enhancement\s*Chip\)`. -/
def isEnhSection (cs : List Char) : Bool :=
  let l := cs.map Char.toLower
  "enhancement".data.isPrefixOf l && (l.drop 11).dropWhile Char.isWhitespace = "chip".data

/-- `enhancement_chip_regex.search(name)`. -/
def hasEnhancementChip (name : String) : Bool := (sections name).any isEnhSection

-- ### Language-list tag

/-- Split a section on `,` and then on `+`, as `parse_languages` does. -/
def splitLangGroups (cs : List Char) : List (List Char) :=
  listFlat (splitChar '+') (splitChar ',' cs)

/-- A section whose whole content matches
`languages_regex = \(([a-z]{2}(?:[,+][a-z]{2})*)\)` (case-insensitive):
non-empty groups of exactly two letters separated by `,` or `+`. -/
def isLangShape (cs : List Char) : Bool :=
  let gs := splitLangGroups cs
  !gs.isEmpty && gs.all (fun g => g.length = 2 && g.all Char.isAlpha)

/-- `parse_languages`: the two-letter codes of the first language-list tag,
lowercased; empty when the name carries no such tag. -/
def parse_languages (name : String) : List String :=
  match (sections name).find? isLangShape with
  | some cs => (splitLangGroups cs).map (fun g => lowerStr (String.mk g))
  | none => []

-- ### Region table and region detection

/-- `RegionData`: region code, full-match detection alternatives (stored
lowercased; the empty list models a `None` pattern, which never matches),
and default languages. -/
structure RegionData where
  code : String
  alts : List String
  languages : List String
deriving DecidableEq, Repr

/-- `COUNTRY_REGION_CORRELATION`: the static region table of generate.py,
with each compiled alternation `((A)|(B))` unfolded to its literal
alternatives. -/
def regionTable : List RegionData := [
  ⟨"ASI", ["asia"], ["zh"]⟩,
  ⟨"ARG", ["argentina"], ["es"]⟩,
  ⟨"AUS", ["australia"], ["en"]⟩,
  ⟨"BRA", ["brazil"], ["pt"]⟩,
  ⟨"CAN", ["canada"], ["en", "fr"]⟩,
  ⟨"CHN", ["china", "hong kong"], ["zh"]⟩,
  ⟨"DAN", ["denmark"], ["da"]⟩,
  ⟨"EUR", ["europe", "world"], ["en"]⟩,
  ⟨"FRA", ["france"], ["fr"]⟩,
  ⟨"FYN", ["finland"], ["fi"]⟩,
  ⟨"GER", ["germany"], ["de"]⟩,
  ⟨"GRE", ["greece"], ["el"]⟩,
  ⟨"ITA", ["italy"], ["it"]⟩,
  ⟨"JPN", ["japan", "world"], ["ja"]⟩,
  ⟨"HOL", ["netherlands"], ["nl"]⟩,
  ⟨"KOR", ["korea"], ["ko"]⟩,
  ⟨"MEX", ["mexico"], ["es"]⟩,
  ⟨"NOR", ["norway"], ["no"]⟩,
  ⟨"RUS", ["russia"], ["ru"]⟩,
  ⟨"SPA", ["spain"], ["es"]⟩,
  ⟨"SWE", ["sweden"], ["sv"]⟩,
  ⟨"USA", ["usa", "world"], ["en"]⟩,
  ⟨"TAI", ["taiwan"], ["zh"]⟩]

/-- `region_data.pattern.fullmatch(element)`: a full, case-insensitive match
of the element against one of the entry's alternatives; an entry without a
pattern (empty `alts`) never matches. -/
def regionMatches (rd : RegionData) (el : List Char) : Bool :=
  rd.alts.any (fun a => lowerStr (String.mk el) = a)

/-- `parse_region_data(name)`: for each parenthesized section, for each
comma-separated, stripped element, every region entry whose pattern fully
matches the element, appended in table order.  Only the static table can
match (auto-registered codes have no pattern). -/
def parse_region_data (name : String) : List RegionData :=
  listFlat
    (fun sec =>
      listFlat
        (fun el => regionTable.filter (fun rd => regionMatches rd el))
        ((splitChar ',' sec).map stripChars))
    (sections name)

/-- `get_languages`: union of the default languages of the matched regions,
first-seen order, deduplicated. -/
def get_languages (rds : List RegionData) : List String :=
  rds.foldl
    (fun acc rd => rd.languages.foldl (fun a l => if l ∈ a then a else a ++ [l]) acc)
    []

/-- `is_present(code, region_data)`: note the raw (uncased) code comparison. -/
def is_present (code : String) (rds : List RegionData) : Bool :=
  rds.any (fun r => r.code = code)

/-- `get_region_data`, with the mutable global table threaded explicitly:
look up the uppercased code; unknown codes are auto-registered with no
pattern and no languages, and the grown table is returned. -/
def get_region_data (table : List RegionData) (code : String) :
    RegionData × List RegionData :=
  let up := if code = "" then code else upperStr code
  match table.find? (fun r => r.code = up) with
  | some r => (r, table)
  | none =>
    let nr : RegionData := ⟨up, [], []⟩
    (nr, table ++ [nr])

-- ### Catalog data model (the shape handed back by the external DAT parser)

/-- A ROM file descriptor of a catalog item (`rom_entry`): name and SHA1. -/
structure Rom where
  name : String
  sha1 : String
deriving DecidableEq, Repr

/-- A declared release of a catalog item, carrying a region code. -/
structure Release where
  region : String
deriving DecidableEq, Repr

/-- A catalog item (`game` of the DAT file). -/
structure Game where
  name : String
  cloneof : Option String
  release : List Release
  rom : List Rom
deriving DecidableEq, Repr

/-- `GameEntry` (one candidate: item × detected region), fields in the
constructor order of `classes.GameEntry` as used in `parse_games`. -/
structure GameEntry where
  isBad : Bool
  isPrerelease : Bool
  region : String
  languages : List String
  inputIndex : Nat
  revision : String
  version : String
  sample : String
  demo : String
  beta : String
  proto : String
  isParent : Bool
  name : String
  roms : List Rom
deriving DecidableEq, Repr

/-- The filter configuration handed to `parse_games`; exclusion patterns are
modelled as match predicates on names. -/
structure FilterCfg where
  bios : Bool
  program : Bool
  enhancementChip : Bool
  pirate : Bool
  promo : Bool
  unlicensed : Bool
  proto : Bool
  beta : Bool
  demo : Bool
  sample : Bool
  exclude : List (String → Bool)

/-- Modelled from the spec: `utils.check_in_pattern_list` is not under
`src/`; per the spec, membership tests against a pattern list hold when some
pattern of the list matches the name (case handling and literal-vs-regex
matching live inside each predicate). -/
def check_in_pattern_list (name : String) (pats : List (String → Bool)) : Bool :=
  pats.any (fun p => p name)

/-- The no-filters configuration (all filter flags off, no exclusions). -/
def cfg0 : FilterCfg := ⟨false, false, false, false, false, false, false, false, false, false, []⟩

/-- The filter cascade at the top of the `parse_games` loop: any enabled
filter whose pattern matches, or a hit in the exclusion list, drops the
item. -/
def droppedByFilters (cfg : FilterCfg) (name : String) : Bool :=
  (cfg.bios && hasBios name) ||
  (cfg.unlicensed && hasUnl name) ||
  (cfg.pirate && hasPirate name) ||
  (cfg.promo && hasPromo name) ||
  (cfg.program && hasProgram name) ||
  (cfg.enhancementChip && hasEnhancementChip name) ||
  (cfg.beta && (preMatch "beta" name).isSome) ||
  (cfg.demo && (preMatch "demo" name).isSome) ||
  (cfg.sample && (preMatch "sample" name).isSome) ||
  (cfg.proto && (preMatch "proto" name).isSome) ||
  check_in_pattern_list name cfg.exclude

/-- The loop `for release in game.release: if release.region and not
is_present(...): region_data.append(get_region_data(release.region))`,
threading the global region table. -/
def appendReleases (table : List RegionData) (rds : List RegionData) :
    List Release → List RegionData × List RegionData
  | [] => (rds, table)
  | rel :: rest =>
    if rel.region ≠ "" && !is_present rel.region rds then
      let p := get_region_data table rel.region
      appendReleases p.2 (rds ++ [p.1]) rest
    else appendReleases table rds rest

/-- One candidate of an item: everything but the region code is computed
from the item alone, so all candidates of one item share it. -/
def mkEntryFor (g : Game) (idx : Nat) (langs : List String) (code : String) : GameEntry :=
  { isBad := hasBad g.name
    isPrerelease := (preMatch "beta" g.name).isSome || (preMatch "demo" g.name).isSome ||
      (preMatch "sample" g.name).isSome || (preMatch "proto" g.name).isSome
    region := code
    languages := langs
    inputIndex := idx
    revision := parse_revision g.name
    version := parse_version g.name
    sample := parse_prerelease (preMatch "sample" g.name)
    demo := parse_prerelease (preMatch "demo" g.name)
    beta := parse_prerelease (preMatch "beta" g.name)
    proto := parse_prerelease (preMatch "proto" g.name)
    isParent := g.cloneof.isNone
    name := g.name
    roms := g.rom }

/-- The language list of an item with no declared releases: the explicit
language tag when present, otherwise the defaults of the name-matched
regions. -/
def gameLangs (g : Game) : List String :=
  if (parse_languages g.name).isEmpty
  then get_languages (parse_region_data g.name)
  else parse_languages g.name

/-- The per-item body of `parse_games`: filters, tag extraction, region
detection (name sections plus declared releases), language derivation, and
expansion into one `GameEntry` per element of the matched region list.
Returns the entries and the possibly-grown region table. -/
def gameEntriesOf (cfg : FilterCfg) (table : List RegionData) (idx : Nat)
    (g : Game) : List GameEntry × List RegionData :=
  if droppedByFilters cfg g.name then ([], table)
  else
    let rdsTable := appendReleases table (parse_region_data g.name) g.release
    let pl := parse_languages g.name
    let langs := if pl.isEmpty then get_languages rdsTable.1 else pl
    (rdsTable.1.map (fun rd => mkEntryFor g idx langs rd.code), rdsTable.2)

/-- The `parse_games` loop over the catalog, threading index and table. -/
def parseGamesAux (cfg : FilterCfg) : List Game → Nat → List RegionData → List GameEntry
  | [], _, _ => []
  | g :: gs, i, tbl =>
    let p := gameEntriesOf cfg tbl i g
    p.1 ++ parseGamesAux cfg gs (i + 1) p.2

/-- All candidates produced by `parse_games` (the concatenation, in
discovery order, of the per-family lists it groups). -/
def parse_games (cfg : FilterCfg) (games : List Game) : List GameEntry :=
  parseGamesAux cfg games 0 regionTable

-- ### Family-wide numeric padding
-- Modelled from the spec: `utils.add_padding` is not under `src/`.  Per the
-- spec, each tag string is tokenized into numeric fields (maximal digit
-- runs, split on non-digit boundaries); across the family each field
-- position is zero-padded to the maximum width used at that position, and
-- the string is re-rendered with the non-digit separators untouched.

/-- The decimal digit class (regex `\d` / Python `str.isdigit` on ASCII). -/
def isDigitC (c : Char) : Bool := 48 ≤ c.toNat && c.toNat ≤ 57

/-- Group a character list into maximal runs flagged digit/non-digit. -/
def tokenizeRuns : List Char → List (Bool × List Char)
  | [] => []
  | c :: cs =>
    match tokenizeRuns cs with
    | (b, run) :: rest =>
      if isDigitC c = b then (b, c :: run) :: rest
      else (isDigitC c, [c]) :: (b, run) :: rest
    | [] => [(isDigitC c, [c])]

/-- The widths of the digit runs of a string, in order. -/
def runLengths (s : String) : List Nat :=
  ((tokenizeRuns s.data).filter (fun t => t.1)).map (fun t => t.2.length)

/-- Pointwise maximum of two width lists (missing positions count 0). -/
def zipMax : List Nat → List Nat → List Nat
  | [], ws => ws
  | vs, [] => vs
  | v :: vs, w :: ws => max v w :: zipMax vs ws

/-- Family-wide maximum width at each digit-field position. -/
def fieldWidths (ss : List String) : List Nat :=
  ss.foldl (fun acc s => zipMax acc (runLengths s)) []

/-- Zero-pad a digit run on the left to width `w`. -/
def leftPad (w : Nat) (run : List Char) : List Char :=
  List.replicate (w - run.length) '0' ++ run

/-- Pad the digit runs of a token list against a width list. -/
def padRuns : List (Bool × List Char) → List Nat → List (Bool × List Char)
  | [], _ => []
  | (b, run) :: rest, ws =>
    if b then
      match ws with
      | w :: ws2 => (b, leftPad w run) :: padRuns rest ws2
      | [] => (b, run) :: padRuns rest []
    else (b, run) :: padRuns rest ws

/-- Re-render a token list as a string. -/
def renderRuns (ts : List (Bool × List Char)) : List Char :=
  listFlat (fun t => t.2) ts

/-- Modelled from the spec: `utils.add_padding` is not under `src/`.
Zero-pads every numeric field of every string to the family-wide maximum
width of its position. -/
def add_padding (ss : List String) : List String :=
  ss.map (fun s => String.mk (renderRuns (padRuns (tokenizeRuns s.data) (fieldWidths ss))))

/-- `pad_values(games, get, set)`: distribute the padded strings back onto
the entries. -/
def pad_values (games : List GameEntry) (get : GameEntry → String)
    (set : GameEntry → String → GameEntry) : List GameEntry :=
  List.zipWith set games (add_padding (games.map get))

/-- The six family-wide padding passes of `main`, in source order
(version, revision, sample, demo, beta, proto). -/
def padFamily (games : List GameEntry) : List GameEntry :=
  let g1 := pad_values games (fun g => g.version) (fun g s => { g with version := s })
  let g2 := pad_values g1 (fun g => g.revision) (fun g s => { g with revision := s })
  let g3 := pad_values g2 (fun g => g.sample) (fun g s => { g with sample := s })
  let g4 := pad_values g3 (fun g => g.demo) (fun g s => { g with demo := s })
  let g5 := pad_values g4 (fun g => g.beta) (fun g s => { g with beta := s })
  pad_values g5 (fun g => g.proto) (fun g s => { g with proto := s })

-- ### Scoring

/-- First index of `x` in `l`, if present. -/
def firstIndex? (l : List String) (x : String) : Option Nat :=
  match l with
  | [] => none
  | a :: as => if a = x then some 0 else (firstIndex? as x).map (fun n => n + 1)

/-- Modelled from the spec: `utils.get_index` is not under `src/`; per the
spec it is the index of the item in the list, or the default when absent. -/
def get_index (l : List String) (x : String) (d : Int) : Int :=
  match firstIndex? l x with
  | some n => (n : Int)
  | none => d

/-- Modelled from the spec: `utils.to_int_list` is not under `src/`.  Per
the spec the padded tag string becomes a family-wide comparable integer
vector whose sign follows the multiplier; the vector is character-wise so
that pure-string comparison after padding coincides with vector comparison
and the `"Z"` sentinel maps above every padded digit value. -/
def to_int_list (s : String) (mult : Int) : List Int :=
  s.data.map (fun c => mult * (c.toNat : Int))

/-- `Score` as built by `set_scores`. -/
structure Score where
  region : Int
  languages : Int
  revision : List Int
  version : List Int
  sample : List Int
  demo : List Int
  beta : List Int
  proto : List Int
deriving DecidableEq, Repr

/-- The body of `set_scores` for one entry. -/
def scoreOf (selectedRegions selectedLanguages : List String)
    (languageWeight : Int) (revisionAsc versionAsc : Bool) (g : GameEntry) : Score :=
  { region := get_index selectedRegions g.region UNSELECTED
    languages := (g.languages.map
      (fun lang => (get_index selectedLanguages lang (-1) + 1) * (-languageWeight))).sum
    revision := to_int_list g.revision (if revisionAsc then 1 else -1)
    version := to_int_list g.version (if versionAsc then 1 else -1)
    sample := to_int_list g.sample (-1)
    demo := to_int_list g.demo (-1)
    beta := to_int_list g.beta (-1)
    proto := to_int_list g.proto (-1) }

-- ### Ranking comparator
-- Modelled from the spec: `classes.GameEntryKeyGenerator` is not under
-- `src/`; the composite ordering below follows the sixteen stages of the
-- spec, each disabled stage contributing an equal key.

/-- The sort/selection preference configuration. -/
structure SortCfg where
  prioritizeLanguages : Bool
  preferPrereleases : Bool
  preferParents : Bool
  inputOrder : Bool
  prefer : List (String → Bool)
  avoid : List (String → Bool)

/-- Three-way comparison on the integers. -/
def cmpInt (a b : Int) : Ordering :=
  if a < b then .lt else if a = b then .eq else .gt

/-- Booleans ordered with `false` first (`false` wins the stage). -/
def cmpBool (a b : Bool) : Ordering :=
  cmpInt (cond a 1 0) (cond b 1 0)

/-- Lexicographic comparison of integer vectors, a strict prefix ordering
first (Python list comparison). -/
def cmpIntList : List Int → List Int → Ordering
  | [], [] => .eq
  | [], _ :: _ => .lt
  | _ :: _, [] => .gt
  | a :: as, b :: bs => (cmpInt a b).then (cmpIntList as bs)

/-- Number of distinct languages of a candidate. -/
def distinctCount : List String → Nat
  | [] => 0
  | x :: xs => (if x ∈ xs then 0 else 1) + distinctCount xs

/-- Modelled from the spec: the sixteen-stage composite ordering of
`classes.GameEntryKeyGenerator` (smaller sorts first = ranked better):
good dumps, prerelease preference, avoid list, region/language ranks (in
configured priority), parents if preferred, input order if enabled, prefer
list, the six padded tag vectors, distinct-language count, parents. -/
def compareEntries (cfg : SortCfg) (a b : GameEntry × Score) : Ordering :=
  (cmpBool a.1.isBad b.1.isBad).then <|
  (cmpBool (xor a.1.isPrerelease cfg.preferPrereleases)
           (xor b.1.isPrerelease cfg.preferPrereleases)).then <|
  (cmpBool (!cfg.avoid.isEmpty && check_in_pattern_list a.1.name cfg.avoid)
           (!cfg.avoid.isEmpty && check_in_pattern_list b.1.name cfg.avoid)).then <|
  (if cfg.prioritizeLanguages
    then (cmpInt a.2.languages b.2.languages).then (cmpInt a.2.region b.2.region)
    else (cmpInt a.2.region b.2.region).then (cmpInt a.2.languages b.2.languages)).then <|
  (cmpBool (cfg.preferParents && !a.1.isParent)
           (cfg.preferParents && !b.1.isParent)).then <|
  (cmpInt (if cfg.inputOrder then (a.1.inputIndex : Int) else 0)
          (if cfg.inputOrder then (b.1.inputIndex : Int) else 0)).then <|
  (cmpBool (!cfg.prefer.isEmpty && !check_in_pattern_list a.1.name cfg.prefer)
           (!cfg.prefer.isEmpty && !check_in_pattern_list b.1.name cfg.prefer)).then <|
  (cmpIntList a.2.revision b.2.revision).then <|
  (cmpIntList a.2.version b.2.version).then <|
  (cmpIntList a.2.sample b.2.sample).then <|
  (cmpIntList a.2.demo b.2.demo).then <|
  (cmpIntList a.2.beta b.2.beta).then <|
  (cmpIntList a.2.proto b.2.proto).then <|
  (cmpInt (-(distinctCount a.1.languages : Int)) (-(distinctCount b.1.languages : Int))).then
  (cmpBool (!a.1.isParent) (!b.1.isParent))

-- ### Digest dictionaries and the hash indexer
-- Python dicts become insertion-ordered association lists.

/-- `d[k]` lookup, `None` when absent. -/
def dictGet? : List (String × String) → String → Option String
  | [], _ => none
  | p :: ps, k => if p.1 = k then some p.2 else dictGet? ps k

/-- `d[k] = v`: overwrite in place, or append a new key. -/
def dictSet (d : List (String × String)) (k v : String) : List (String × String) :=
  match d with
  | [] => [(k, v)]
  | p :: ps => if p.1 = k then (k, v) :: ps else p :: dictSet ps k v

/-- `k in d`. -/
def dictMem (d : List (String × String)) (k : String) : Bool :=
  (dictGet? d k).isSome

/-- `is_zip(file)`: `zip_regex = re.escape(os.path.extsep) + r'zip$'` under
`re.IGNORECASE`, i.e. the lowercased path ends in `.zip`. -/
def is_zip (file : String) : Bool :=
  ".zip".data.isSuffixOf (lowerStr file).data

/-- A repository file as the per-file worker sees it: its path, the digests
of its inner zip streams (consulted only when the path is a zip), and the
digest of the monolithic read (`none` models an unreadable file). -/
structure FileDesc where
  path : String
  members : List String
  whole : Option String
deriving DecidableEq, Repr

/-- `process_file` in the uncancelled run: inner zip streams hash to the
archive path; then the monolithic digest is recorded unless it is already
present under a non-zip path. -/
def process_file (fd : FileDesc) : List (String × String) :=
  let r0 : List (String × String) :=
    if is_zip fd.path then fd.members.foldl (fun d dg => dictSet d dg fd.path) [] else []
  match fd.whole with
  | none => r0
  | some dg =>
    match dictGet? r0 dg with
    | none => dictSet r0 dg fd.path
    | some v => if is_zip v then dictSet r0 dg fd.path else r0

/-- One step of the coordinator merge in `index_files`:
`if key in result and not is_zip(result[key]): result[key] = value`. -/
def mergeOne (result inter : List (String × String)) : List (String × String) :=
  inter.foldl
    (fun res kv =>
      if dictMem res kv.1 && !is_zip ((dictGet? res kv.1).getD "") then
        dictSet res kv.1 kv.2
      else res)
    result

/-- The whole coordinator merge, in the order the per-file results arrive. -/
def mergeAll (seed : List (String × String)) (inters : List (List (String × String))) :
    List (String × String) :=
  inters.foldl mergeOne seed

/-- The seeding loop of `index_files`: every catalog digest, lowercased,
mapped to the empty placeholder. -/
def seedIndex (games : List Game) : List (String × String) :=
  games.foldl (fun d g => g.rom.foldl (fun d2 r => dictSet d2 (lowerStr r.sha1) "") d) []

/-- `index_files` on a catalog and the per-file worker results, abstracting
the worker pool as the ordered list of its results. -/
def indexFilesResult (games : List Game) (inters : List (List (String × String))) :
    List (String × String) :=
  mergeAll (seedIndex games) inters

/-- `index_files` with the per-file results computed by `process_file` on a
given repository listing. -/
def index_files (games : List Game) (fds : List FileDesc) : List (String × String) :=
  indexFilesResult games (fds.map process_file)

-- ### Cancellation (the QUIT flag)

/-- `process_with_progress`, exposing its two observations of the
process-wide `QUIT` flag: one on entry and one after `process_file`. -/
def process_with_progress (quitBefore quitAfter : Bool) (fd : FileDesc) :
    List (String × String) :=
  if quitBefore then [] else if quitAfter then [] else process_file fd

/-- A worker observing a time-indexed cancellation flag at entry time `t0`
and post-hash time `t1`. -/
def workerResult (quit : Nat → Bool) (t0 t1 : Nat) (fd : FileDesc) :
    List (String × String) :=
  process_with_progress (quit t0) (quit t1) fd

-- ### The selection walk over a sorted family

/-- The skeleton of the per-family selection loop of `main`, common to all
resolution modes: visit candidates best-first, abort the whole family on an
exclude-after hit, and stop at the first candidate the mode resolves. -/
def selectionWalk (excludeAfter : List (String → Bool))
    (resolves : GameEntry → Bool) : List GameEntry → Option GameEntry
  | [] => none
  | e :: rest =>
    if check_in_pattern_list e.name excludeAfter then none
    else if resolves e then some e
    else selectionWalk excludeAfter resolves rest

/-- Diagnostics of the hash-based walk (tier-2 warnings). -/
inductive Diag where
  | romNotFound (game : String) (rom : String) (cand : String)
  | noEligible (game : String)
deriving DecidableEq, Repr

/-- A candidate resolves in hash mode when at least one of its ROM digests
maps to a non-empty path (`copied_files` ends up non-empty). -/
def entryResolved (lookup : String → String) (e : GameEntry) : Bool :=
  e.roms.any (fun r => lookup (lowerStr r.sha1) ≠ "")

/-- The per-candidate warnings of the hash branch: one for each declared
ROM whose digest maps to no path, in declaration order, suppressed by
`--no-warning`. -/
def romDiags (noWarning : Bool) (gameKey : String) (lookup : String → String)
    (e : GameEntry) : List Diag :=
  if noWarning then []
  else (e.roms.filter (fun r => lookup (lowerStr r.sha1) = "")).map
    (fun r => Diag.romNotFound gameKey r.name e.name)

/-- The hash-based branch of the selection loop: returns the resolved
candidate (if any) and the emitted diagnostics, including the single
"no eligible candidates" warning when the family is exhausted. -/
def hashWalk (noWarning : Bool) (gameKey : String)
    (excludeAfter : List (String → Bool)) (lookup : String → String) :
    List GameEntry → Option GameEntry × List Diag
  | [] => (none, [])
  | e :: rest =>
    if check_in_pattern_list e.name excludeAfter then (none, [])
    else
      let ds := romDiags noWarning gameKey lookup e
      if entryResolved lookup e then (some e, ds)
      else if rest.isEmpty then
        (none, ds ++ if noWarning then [] else [Diag.noEligible gameKey])
      else
        let p := hashWalk noWarning gameKey excludeAfter lookup rest
        (p.1, ds ++ p.2)

-- ### Option validation (lines 581-639 of main)

/-- The option values main has accumulated when the validation block runs. -/
structure Options where
  datFile : String
  inputDir : String
  outputDir : String
  fileExtension : String
  selectedRegions : List String
  useHashes : Bool
  revisionAsc : Bool
  versionAsc : Bool
  inputOrder : Bool
  preferParents : Bool
  ignoreCase : Bool
  regex : Bool
  allRegions : Bool
  allRegionsWithLang : Bool
  preferStr : String
  avoidStr : String
  excludeStr : String
deriving DecidableEq, Repr

/-- The validation cascade of `main`, in source order; `some c` means the
program exits with status `c` before any catalog parsing, indexing or
selection, `none` means processing proceeds.  `sys.exit(1)` exits with
status 1; the bare `sys.exit()` on the all-regions conflict exits with
status 0. -/
def validateOptions (o : Options) : Option Nat :=
  if o.fileExtension ≠ "" && o.useHashes then some 1
  else if o.inputDir = "" && o.useHashes then some 1
  else if o.datFile = "" then some 1
  else if o.selectedRegions.isEmpty then some 1
  else if (o.revisionAsc || o.versionAsc) && o.inputOrder then some 1
  else if (o.revisionAsc || o.versionAsc) && o.preferParents then some 1
  else if o.preferParents && o.inputOrder then some 1
  else if o.outputDir ≠ "" && o.inputDir = "" then some 1
  else if o.ignoreCase && o.preferStr = "" && o.avoidStr = "" && o.excludeStr = "" then some 1
  else if o.regex && o.preferStr = "" && o.avoidStr = "" && o.excludeStr = "" then some 1
  else if o.allRegions && o.allRegionsWithLang then some 0
  else none

/-- The outcome of `main` as far as the validation tier decides it. -/
inductive MainPhase where
  | exited (code : Nat)
  | proceeds
deriving DecidableEq, Repr

/-- `main` either exits during validation (before `validate_dat`,
`index_files` and `parse_games` run) or proceeds to processing. -/
def mainValidation (o : Options) : MainPhase :=
  match validateOptions o with
  | some c => .exited c
  | none => .proceeds

-- ### Language preference list construction (lines 494-497 of main)

/-- Modelled from the spec: `utils.is_valid` is not under `src/`; per the
spec an argument token is valid when it is non-blank. -/
def is_valid (x : String) : Bool := !(stripChars x.data).isEmpty

/-- `selected_languages = [x.strip().lower() for x in reversed(arg.split(','))
if is_valid(x)]`, on the already-split token list. -/
def selectedLanguagesOf (toks : List String) : List String :=
  toks.reverse.filterMap
    (fun x => if is_valid x then some (lowerStr (String.mk (stripChars x.data))) else none)

-- ### Spec-side numeric reading of tag fields (for the padding claims)

/-- The decimal value of a digit run (most significant first). -/
def natOfDigits : List Char → Nat
  | [] => 0
  | c :: cs => (c.toNat - 48) * 10 ^ cs.length + natOfDigits cs

/-- The numeric field vector of a tag string: the decimal values of its
maximal digit runs, in order (the spec's "numeric comparison of the
original tag fields" compares these vectors). -/
def fieldVals (s : String) : List Int :=
  ((tokenizeRuns s.data).filter (fun t => t.1)).map (fun t => (natOfDigits t.2 : Int))

/-- The family-wide maximum tag width (the single field width of a family
of pure-digit tags). -/
def famWidth (ss : List String) : Nat :=
  ss.foldl (fun m s => max m s.data.length) 0

-- ### Concrete fixtures used by the closed theorems and witnesses

/-- Default sort configuration: no optional stage enabled. -/
def cfgDefault : SortCfg := ⟨false, false, false, false, [], []⟩

/-- A loose (uncompressed) repository file with content digest `d`. -/
def looseFd : FileDesc := ⟨"a", [], some "d"⟩

/-- A zip archive containing one stream of digest `d`; the archive file
itself hashes to `e`. -/
def zipFd : FileDesc := ⟨"b.zip", ["d"], some "e"⟩

/-- A one-item catalog declaring the digest `D` (lowercased to `d`). -/
def datD : List Game := [⟨"Game (USA)", none, [], [⟨"g.rom", "D"⟩]⟩]

/-- A two-item family: a parent at `Rev 2` and its clone at `Rev 10`. -/
def datRev : List Game := [
  ⟨"Game (USA) (Rev 2)", none, [], [⟨"g.rom", "AA"⟩]⟩,
  ⟨"Game (USA) (Rev 10)", some "Game (USA) (Rev 2)", [], [⟨"g.rom", "BB"⟩]⟩]

/-- The `datRev` family after parsing and the six padding passes. -/
def famRev : List GameEntry := padFamily (parse_games cfg0 datRev)

/-- A throwaway entry (out-of-range default for list indexing). -/
def dummyE : GameEntry := ⟨false, false, "", [], 0, "", "", "", "", "", "", false, "", []⟩

/-- Scoring of the `datRev` family under regions `[USA]`, no languages. -/
def scRev (g : GameEntry) : Score := scoreOf ["USA"] [] 3 false false g

/-- A region preference list with 10001 entries: 10000 copies of `AAA`
followed by `USA`. -/
def bigRegionList : List String := List.replicate 10000 "AAA" ++ ["USA"]

/-- A candidate whose region is the last entry of `bigRegionList`. -/
def entryUSA : GameEntry := ⟨false, false, "USA", [], 0, "0", "0", "Z", "Z", "Z", "Z", true, "P", []⟩

/-- A candidate whose region is absent from `bigRegionList`. -/
def entryZZZ : GameEntry := ⟨false, false, "ZZZ", [], 0, "0", "0", "Z", "Z", "Z", "Z", true, "Q", []⟩

/-- Options selecting both `--all-regions` and `--all-regions-with-lang`. -/
def oConflict : Options :=
  ⟨"x.dat", "", "", "", ["USA"], false, false, false, false, false, false, false, true, true, "", "", ""⟩

/-- Options combining `--early-revisions` with `--input-order`. -/
def oRevInput : Options :=
  ⟨"x.dat", "", "", "", ["USA"], false, true, false, true, false, false, false, false, false, "", "", ""⟩

/-- Options combining `--early-versions` with `--prefer-parents`. -/
def oVerParents : Options :=
  ⟨"x.dat", "", "", "", ["USA"], false, false, true, false, true, false, false, false, false, "", "", ""⟩

/-- Options combining `--prefer-parents` with `--input-order`. -/
def oParentsInput : Options :=
  ⟨"x.dat", "", "", "", ["USA"], false, false, false, true, true, false, false, false, false, "", "", ""⟩

/-- Options lacking the required DAT file. -/
def oNoDat : Options :=
  ⟨"", "", "", "", ["USA"], false, false, false, false, false, false, false, false, false, "", "", ""⟩

/-- Options lacking a region selection. -/
def oNoRegions : Options :=
  ⟨"x.dat", "", "", "", [], false, false, false, false, false, false, false, false, false, "", "", ""⟩

/-- An item whose name carries a `World` tag. -/
def gameWorld : Game := ⟨"Game (World)", none, [], [⟨"r", "AA"⟩]⟩

/-- An item matched as Japan once directly and once through `World`. -/
def gameJW : Game := ⟨"Game (Japan) (World)", none, [], [⟨"r", "AA"⟩]⟩

/-- Candidates for the walk witnesses. -/
def eGood : GameEntry :=
  ⟨false, false, "USA", [], 0, "0", "0", "Z", "Z", "Z", "Z", true, "Good", [⟨"r1", "AA"⟩]⟩

/-- A candidate whose name an exclude-after pattern matches. -/
def eBad : GameEntry :=
  ⟨false, false, "EUR", [], 1, "0", "0", "Z", "Z", "Z", "Z", true, "Bad", [⟨"r2", "BB"⟩]⟩

/-- A lower-ranked candidate behind `eBad`. -/
def eTail : GameEntry :=
  ⟨false, false, "JPN", [], 2, "0", "0", "Z", "Z", "Z", "Z", true, "Tail", [⟨"r3", "CC"⟩]⟩

-- ## Theorems

-- ### Helper lemmas on first indices

theorem firstIndex?_eq_none {l : List String} {x : String} (h : x ∉ l) :
    firstIndex? l x = none := by
  induction l with
  | nil => rfl
  | cons a as ih =>
    have hax : ¬ a = x := by rintro rfl; exact h (by simp)
    simp only [firstIndex?, if_neg hax]
    rw [ih (fun hm => h (List.mem_cons_of_mem a hm))]
    rfl

theorem firstIndex?_of_mem {l : List String} {x : String} (h : x ∈ l) :
    ∃ n, firstIndex? l x = some n ∧ n < l.length := by
  induction l with
  | nil => cases h
  | cons a as ih =>
    by_cases hax : a = x
    · exact ⟨0, by simp [firstIndex?, hax], by simp⟩
    · have hm : x ∈ as := by
        rcases List.mem_cons.mp h with h1 | h1
        · exact absurd h1.symm hax
        · exact h1
      obtain ⟨n, hn, hlt⟩ := ih hm
      exact ⟨n + 1, by simp [firstIndex?, if_neg hax, hn], by simp; omega⟩

theorem firstIndex?_append (l1 l2 : List String) {x : String} {n : Nat}
    (h1 : x ∉ l1) (h2 : firstIndex? l2 x = some n) :
    firstIndex? (l1 ++ l2) x = some (n + l1.length) := by
  induction l1 with
  | nil => simpa using h2
  | cons a as ih =>
    have hax : ¬ a = x := by rintro rfl; exact h1 (by simp)
    simp only [List.cons_append, firstIndex?, if_neg hax, List.append_eq]
    rw [ih (fun hm => h1 (List.mem_cons_of_mem a hm))]
    simp [Option.map_some]
    omega

theorem get_index_of_some {l : List String} {x : String} {n : Nat} (d : Int)
    (h : firstIndex? l x = some n) : get_index l x d = (n : Int) := by
  simp [get_index, h]

theorem get_index_of_none {l : List String} {x : String} (d : Int)
    (h : firstIndex? l x = none) : get_index l x d = d := by
  simp [get_index, h]

theorem scoreOf_region (sel langs : List String) (w : Int) (ra va : Bool)
    (g : GameEntry) :
    (scoreOf sel langs w ra va g).region = get_index sel g.region UNSELECTED := rfl

-- ### C4: the UNSELECTED region rank

/-- C4: counter to the claim, a candidate whose region sits at index 10000
of a 10001-entry preference list receives region rank 10000 — exactly the
`UNSELECTED` sentinel — so its rank is not strictly better than that of a
candidate whose region is absent from the list. -/
theorem region_rank_unselected_not_worst :
    (scoreOf bigRegionList [] 3 false false entryUSA).region =
      (scoreOf bigRegionList [] 3 false false entryZZZ).region ∧
    (scoreOf bigRegionList [] 3 false false entryZZZ).region = UNSELECTED := by
  have hrep : ∀ y : String, y ≠ "AAA" → y ∉ List.replicate 10000 "AAA" :=
    fun y hy hm => absurd (List.eq_of_mem_replicate hm) hy
  have h1 : firstIndex? bigRegionList "USA" = some 10000 := by
    show firstIndex? (List.replicate 10000 "AAA" ++ ["USA"]) "USA" = some 10000
    rw [firstIndex?_append (List.replicate 10000 "AAA") ["USA"] (hrep "USA" (by decide))
      (show firstIndex? ["USA"] "USA" = some 0 by decide)]
    rw [List.length_replicate]
  have h2 : firstIndex? bigRegionList "ZZZ" = none := by
    refine firstIndex?_eq_none ?_
    intro hm
    rcases List.mem_append.mp hm with hm1 | hm1
    · exact hrep "ZZZ" (by decide) hm1
    · exact absurd (List.mem_singleton.mp hm1) (by decide)
  have e1 : entryUSA.region = "USA" := rfl
  have e2 : entryZZZ.region = "ZZZ" := rfl
  constructor
  · rw [scoreOf_region, scoreOf_region, e1, e2, get_index_of_some UNSELECTED h1,
      get_index_of_none UNSELECTED h2]
    rfl
  · rw [scoreOf_region, e2, get_index_of_none UNSELECTED h2]

/-- C4 (amended): whenever the region preference list has at most 10000
entries, an absent region receives exactly the `UNSELECTED` rank 10000 and
every present region receives a strictly better (smaller) rank. -/
theorem unselected_region_rank_worst
    (sel langs : List String) (w : Int) (ra va : Bool) (gIn gOut : GameEntry)
    (hlen : sel.length ≤ 10000)
    (hin : gIn.region ∈ sel) (hout : gOut.region ∉ sel) :
    (scoreOf sel langs w ra va gOut).region = UNSELECTED ∧
    (scoreOf sel langs w ra va gIn).region < (scoreOf sel langs w ra va gOut).region := by
  have h2 : (scoreOf sel langs w ra va gOut).region = UNSELECTED := by
    simp [scoreOf, get_index, firstIndex?_eq_none hout]
  obtain ⟨n, hn, hlt⟩ := firstIndex?_of_mem hin
  refine ⟨h2, ?_⟩
  rw [h2]
  simp only [scoreOf, get_index, hn, UNSELECTED]
  exact_mod_cast by omega

/-- Witness for the amended C4 on a two-region preference list. -/
theorem unselected_region_rank_worst_witness :
    (scoreOf ["EUR", "USA"] [] 3 false false entryZZZ).region = UNSELECTED ∧
    (scoreOf ["EUR", "USA"] [] 3 false false entryUSA).region <
      (scoreOf ["EUR", "USA"] [] 3 false false entryZZZ).region :=
  unselected_region_rank_worst ["EUR", "USA"] [] 3 false false entryUSA entryZZZ
    (by decide) (by decide) (by decide)

-- ### C1: the digest-to-path merge rule

/-- C1: counter to the claim, the final digest-to-path index maps a digest
occurring both loose and inside an archive to the ARCHIVE path, whichever
order the per-file results are merged in: the merge condition
`key in result and not is_zip(result[key])` lets a zip path overwrite a
previously recorded loose path and never lets a loose path replace a zip
one.  The per-file worker itself records the loose path, so the divergence
is in the coordinator merge. -/
theorem index_files_archive_path_wins :
    dictGet? (index_files datD [looseFd, zipFd]) "d" = some "b.zip" ∧
    dictGet? (index_files datD [zipFd, looseFd]) "d" = some "b.zip" ∧
    process_file looseFd = [("d", "a")] := by decide

-- ### C2: exclude-after aborts the whole family

/-- C2: in every resolution mode (abstracted by the `resolves` test), once
the selection walk reaches a candidate whose name matches an exclude-after
pattern, no candidate of the family is selected — lower-ranked resolvable
candidates included; taking `pre = []` is the top-ranked-candidate case. -/
theorem exclude_after_aborts_family
    (excl : List (String → Bool)) (resolves : GameEntry → Bool)
    (pre post : List GameEntry) (e : GameEntry)
    (hpre : ∀ x ∈ pre, check_in_pattern_list x.name excl = false ∧ resolves x = false)
    (he : check_in_pattern_list e.name excl = true) :
    selectionWalk excl resolves (pre ++ e :: post) = none := by
  induction pre with
  | nil => simp [selectionWalk, he]
  | cons x xs ih =>
    obtain ⟨h1, h2⟩ := hpre x (by simp)
    simpa [selectionWalk, h1, h2] using ih (fun y hy => hpre y (by simp [hy]))

/-- Witness for C2: a family whose second candidate matches the
exclude-after pattern yields no selection although its third candidate
would resolve. -/
theorem exclude_after_aborts_family_witness :
    selectionWalk [fun n => n == "Bad"] (fun g => g.name == "Tail")
      ([eGood] ++ eBad :: [eTail]) = none :=
  exclude_after_aborts_family [fun n => n == "Bad"] (fun g => g.name == "Tail")
    [eGood] [eTail] eBad (by decide) (by decide)

-- ### C6: cancellation discards per-file results

/-- C6: the `QUIT` flag is never cleared, so if it is set at any time up to
the worker's post-hash check, the per-file worker returns the empty mapping,
and merging an empty mapping leaves the index unchanged — no partial
per-file result ever reaches the final index. -/
theorem cancelled_worker_merges_nothing
    (quit : Nat → Bool) (t0 t1 : Nat) (fd : FileDesc) (acc : List (String × String))
    (hmono : ∀ s t : Nat, s ≤ t → quit s = true → quit t = true)
    (hset : ∃ t, t ≤ t1 ∧ quit t = true) :
    workerResult quit t0 t1 fd = [] ∧ mergeOne acc [] = acc := by
  obtain ⟨t, ht, hq⟩ := hset
  have h1 : quit t1 = true := hmono t t1 ht hq
  refine ⟨?_, rfl⟩
  cases hq0 : quit t0 <;> simp [workerResult, process_with_progress, h1, hq0]

/-- Witness for C6 at a concretely cancelled run. -/
theorem cancelled_worker_merges_nothing_witness :
    workerResult (fun _ => true) 0 2 zipFd = [] ∧
    mergeOne [("d", "a")] [] = [("d", "a")] :=
  cancelled_worker_merges_nothing (fun _ => true) 0 2 zipFd [("d", "a")]
    (fun _ _ _ h => h) ⟨0, by decide, rfl⟩

-- ### C7: option validation exits before processing

/-- C7: the three pairwise exclusivity checks and the missing-argument
checks all terminate validation with exit status 1 before any processing,
but — counter to the claim — the `--all-regions` / `--all-regions-with-lang`
conflict calls the bare `sys.exit()` and terminates with exit status 0. -/
theorem all_regions_conflict_exits_zero :
    mainValidation oConflict = MainPhase.exited 0 ∧
    validateOptions oRevInput = some 1 ∧
    validateOptions oVerParents = some 1 ∧
    validateOptions oParentsInput = some 1 ∧
    validateOptions oNoDat = some 1 ∧
    validateOptions oNoRegions = some 1 := by decide

-- ### C9: the language score

theorem filterMap_id_of {f : String → Option String} :
    ∀ l : List String, (∀ x ∈ l, f x = some x) → l.filterMap f = l := by
  intro l h
  induction l with
  | nil => rfl
  | cons a as ih =>
    rw [List.filterMap_cons, h a (by simp)]
    rw [ih (fun x hx => h x (List.mem_cons_of_mem a hx))]

theorem data_ne_nil_of_ne_empty {x : String} (h : x ≠ "") : x.data ≠ [] := by
  intro hd
  exact h (by cases x; simp_all)

theorem selectedLanguagesOf_normalized (toks : List String)
    (h : ∀ x ∈ toks, stripChars x.data = x.data ∧ lowerStr x = x ∧ x ≠ "") :
    selectedLanguagesOf toks = toks.reverse := by
  unfold selectedLanguagesOf
  apply filterMap_id_of
  intro x hx
  obtain ⟨h1, h2, h3⟩ := h x (List.mem_reverse.mp hx)
  have hv : is_valid x = true := by
    unfold is_valid
    rw [h1]
    cases hc : x.data with
    | nil => exact absurd hc (data_ne_nil_of_ne_empty h3)
    | cons c cs => simp
  rw [if_pos hv, h1]
  have : String.mk x.data = x := rfl
  rw [this, h2]

/-- C9: with the internal preference list built by main (the user's list
reversed, normalized), the language score is exactly the sum over the
candidate's languages of `(indexInPreferenceList + 1) * weight * (-1)`,
languages absent from the list contribute exactly zero, and a language the
user lists earlier contributes a strictly more negative value than one
listed later. -/
theorem language_score_spec
    (user : List String) (w : Int) (selR : List String) (ra va : Bool) (g : GameEntry)
    (hw : 0 < w)
    (hnorm : ∀ x ∈ user, stripChars x.data = x.data ∧ lowerStr x = x ∧ x ≠ "")
    (hnd : user.Nodup) :
    ((scoreOf selR (selectedLanguagesOf user) w ra va g).languages =
      (g.languages.map (fun lang =>
        (get_index (selectedLanguagesOf user) lang (-1) + 1) * w * (-1))).sum)
    ∧ (∀ lang, lang ∉ selectedLanguagesOf user →
        (get_index (selectedLanguagesOf user) lang (-1) + 1) * w * (-1) = 0)
    ∧ (∀ u1 x u2 y u3, user = u1 ++ x :: u2 ++ y :: u3 →
        (get_index (selectedLanguagesOf user) x (-1) + 1) * w * (-1) <
        (get_index (selectedLanguagesOf user) y (-1) + 1) * w * (-1)) := by
  have hsel : selectedLanguagesOf user = user.reverse :=
    selectedLanguagesOf_normalized user hnorm
  refine ⟨?_, ?_, ?_⟩
  · have hmap : (fun lang => (get_index (selectedLanguagesOf user) lang (-1) + 1) * (-w)) =
        (fun lang => (get_index (selectedLanguagesOf user) lang (-1) + 1) * w * (-1)) := by
      funext lang; ring
    simp only [scoreOf]
    rw [hmap]
  · intro lang hl
    rw [get_index_of_none (-1) (firstIndex?_eq_none hl)]
    ring
  · intro u1 x u2 u3 u4 heq
    -- names: user = (u1 ++ x :: u2) ++ u3 :: u4 with y := u3
    subst heq
    rw [hsel] at *
    have np := List.nodup_append.mp hnd
    have hy1 : u3 ∉ u4 := (List.nodup_cons.mp np.2.1).1
    have hx2 : x ∉ u2 := (List.nodup_cons.mp (List.nodup_append.mp np.1).2.1).1
    have hxin : x ∈ u1 ++ x :: u2 :=
      List.mem_append.mpr (Or.inr (List.mem_cons_self x u2))
    have hxout : x ∉ u3 :: u4 := fun hm => np.2.2 hxin hm
    have hx3 : ¬ u3 = x := fun hm => hxout (by simp [hm])
    have hx4 : x ∉ u4 := fun hm => hxout (by simp [hm])
    have hrev : (u1 ++ x :: u2 ++ u3 :: u4).reverse =
        u4.reverse ++ (u3 :: (u2.reverse ++ x :: u1.reverse)) := by
      simp [List.reverse_append]
    have hfy : firstIndex? ((u1 ++ x :: u2 ++ u3 :: u4).reverse) u3 =
        some u4.reverse.length := by
      rw [hrev]
      have h0 : firstIndex? (u3 :: (u2.reverse ++ x :: u1.reverse)) u3 = some 0 := by
        simp [firstIndex?]
      have := firstIndex?_append u4.reverse (u3 :: (u2.reverse ++ x :: u1.reverse))
        (fun hm => hy1 (List.mem_reverse.mp hm)) h0
      simpa using this
    have hfx0 : firstIndex? (u2.reverse ++ x :: u1.reverse) x =
        some u2.reverse.length := by
      have h0 : firstIndex? (x :: u1.reverse) x = some 0 := by
        simp [firstIndex?]
      have := firstIndex?_append u2.reverse (x :: u1.reverse)
        (fun hm => hx2 (List.mem_reverse.mp hm)) h0
      simpa using this
    have hfx1 : firstIndex? (u3 :: (u2.reverse ++ x :: u1.reverse)) x =
        some (u2.reverse.length + 1) := by
      simp only [firstIndex?, if_neg hx3, hfx0]
      rfl
    have hfx : firstIndex? ((u1 ++ x :: u2 ++ u3 :: u4).reverse) x =
        some (u2.reverse.length + 1 + u4.reverse.length) := by
      rw [hrev]
      exact firstIndex?_append u4.reverse (u3 :: (u2.reverse ++ x :: u1.reverse))
        (fun hm => hx4 (List.mem_reverse.mp hm)) hfx1
    rw [get_index_of_some (-1) hfx, get_index_of_some (-1) hfy]
    have hlt : (u4.reverse.length : Int) + 1 <
        (u2.reverse.length + 1 + u4.reverse.length : Nat) + 1 := by
      push_cast; omega
    have h5 : ((u4.reverse.length : Int) + 1) * w <
        (((u2.reverse.length + 1 + u4.reverse.length : Nat) : Int) + 1) * w :=
      mul_lt_mul_of_pos_right hlt hw
    nlinarith [h5]

/-- Witness for C9: with user preference `en, fr` and weight 3, the earlier
language `en` contributes a strictly more negative value than `fr`. -/
theorem language_score_spec_witness :
    (get_index (selectedLanguagesOf ["en", "fr"]) "en" (-1) + 1) * 3 * (-1) <
      (get_index (selectedLanguagesOf ["en", "fr"]) "fr" (-1) + 1) * 3 * (-1) :=
  (language_score_spec ["en", "fr"] 3 [] false false eGood (by decide) (by decide)
    (by decide)).2.2 [] "en" [] "fr" [] rfl

-- ### C5: hash-based resolution walk

theorem romDiags_count_noElig (k : String) (lookup : String → String) (e : GameEntry) :
    (romDiags false k lookup e).count (Diag.noEligible k) = 0 := by
  rw [List.count_eq_zero]
  intro hm
  unfold romDiags at hm
  simp only [if_neg (by simp : ¬ (false = true))] at hm
  obtain ⟨r, -, heq⟩ := List.mem_map.mp hm
  cases heq

theorem hashWalk_cons_excl (nw : Bool) (k : String) (excl : List (String → Bool))
    (lookup : String → String) (e : GameEntry) (rest : List GameEntry)
    (h : check_in_pattern_list e.name excl = true) :
    hashWalk nw k excl lookup (e :: rest) = (none, []) := by
  simp [hashWalk, h]

theorem hashWalk_cons_res (nw : Bool) (k : String) (excl : List (String → Bool))
    (lookup : String → String) (e : GameEntry) (rest : List GameEntry)
    (he : check_in_pattern_list e.name excl = false)
    (hr : entryResolved lookup e = true) :
    hashWalk nw k excl lookup (e :: rest) = (some e, romDiags nw k lookup e) := by
  simp [hashWalk, he, hr]

theorem hashWalk_cons_last (nw : Bool) (k : String) (excl : List (String → Bool))
    (lookup : String → String) (e : GameEntry)
    (he : check_in_pattern_list e.name excl = false)
    (hr : entryResolved lookup e = false) :
    hashWalk nw k excl lookup [e] =
      (none, romDiags nw k lookup e ++ if nw then [] else [Diag.noEligible k]) := by
  simp [hashWalk, he, hr]

theorem hashWalk_cons_step (nw : Bool) (k : String) (excl : List (String → Bool))
    (lookup : String → String) (e : GameEntry) (rest : List GameEntry)
    (he : check_in_pattern_list e.name excl = false)
    (hr : entryResolved lookup e = false) (hne : rest ≠ []) :
    hashWalk nw k excl lookup (e :: rest) =
      ((hashWalk nw k excl lookup rest).1,
        romDiags nw k lookup e ++ (hashWalk nw k excl lookup rest).2) := by
  rcases rest with - | ⟨b, l⟩
  · exact absurd rfl hne
  · simp [hashWalk, he, hr]

theorem hashWalk_fst (k : String) (excl : List (String → Bool)) (lookup : String → String) :
    ∀ es : List GameEntry, (∀ e ∈ es, check_in_pattern_list e.name excl = false) →
    (hashWalk false k excl lookup es).1 = es.find? (entryResolved lookup) := by
  intro es
  induction es with
  | nil => intro _; rfl
  | cons e rest ih =>
    intro h
    have he := h e (by simp)
    by_cases hr : entryResolved lookup e
    · rw [hashWalk_cons_res false k excl lookup e rest he hr,
        List.find?_cons_of_pos _ hr]
    · have hrr : entryResolved lookup e = false := by simpa using hr
      rw [List.find?_cons_of_neg _ hr]
      cases rest with
      | nil => rw [hashWalk_cons_last false k excl lookup e he hrr]; rfl
      | cons e2 r2 =>
        rw [hashWalk_cons_step false k excl lookup e (e2 :: r2) he hrr (by simp)]
        exact ih (fun y hy => h y (List.mem_cons_of_mem e hy))

theorem hashWalk_noElig (k : String) (excl : List (String → Bool))
    (lookup : String → String) :
    ∀ es : List GameEntry, es ≠ [] →
    (∀ e ∈ es, check_in_pattern_list e.name excl = false) →
    (∀ e ∈ es, entryResolved lookup e = false) →
    (hashWalk false k excl lookup es).2.count (Diag.noEligible k) = 1 := by
  intro es
  induction es with
  | nil => intro h; exact absurd rfl h
  | cons e rest ih =>
    intro _ hx hr
    have he := hx e (by simp)
    have hre := hr e (by simp)
    cases rest with
    | nil =>
      rw [hashWalk_cons_last false k excl lookup e he hre]
      simp [List.count_append, romDiags_count_noElig]
    | cons e2 r2 =>
      rw [hashWalk_cons_step false k excl lookup e (e2 :: r2) he hre (by simp)]
      have := ih (by simp) (fun y hy => hx y (List.mem_cons_of_mem e hy))
        (fun y hy => hr y (List.mem_cons_of_mem e hy))
      simp [List.count_append, romDiags_count_noElig, this]

theorem hashWalk_romDiag (k : String) (excl : List (String → Bool))
    (lookup : String → String) :
    ∀ pre (e : GameEntry) rest,
    (∀ x ∈ pre ++ e :: rest, check_in_pattern_list x.name excl = false) →
    (∀ x ∈ pre, entryResolved lookup x = false) →
    ∀ r ∈ e.roms, lookup (lowerStr r.sha1) = "" →
    Diag.romNotFound k r.name e.name ∈ (hashWalk false k excl lookup (pre ++ e :: rest)).2 := by
  intro pre
  induction pre with
  | nil =>
    intro e rest hx _ r hr hmiss
    have he := hx e (by simp)
    have hmem : Diag.romNotFound k r.name e.name ∈ romDiags false k lookup e := by
      unfold romDiags
      simp only [if_neg (by simp : ¬ (false = true))]
      exact List.mem_map.mpr ⟨r, List.mem_filter.mpr ⟨hr, by simp [hmiss]⟩, rfl⟩
    simp only [List.nil_append]
    by_cases hre : entryResolved lookup e
    · rw [hashWalk_cons_res false k excl lookup e rest he hre]
      exact hmem
    · have hrr : entryResolved lookup e = false := by simpa using hre
      cases rest with
      | nil =>
        rw [hashWalk_cons_last false k excl lookup e he hrr]
        exact List.mem_append.mpr (Or.inl hmem)
      | cons e2 r2 =>
        rw [hashWalk_cons_step false k excl lookup e (e2 :: r2) he hrr (by simp)]
        exact List.mem_append.mpr (Or.inl hmem)
  | cons a pre2 ih =>
    intro e rest hx hpre r hr hmiss
    have ha := hx a (by simp)
    have hra := hpre a (by simp)
    have htail := ih e rest
      (fun y hy => hx y (List.mem_cons_of_mem a hy))
      (fun y hy => hpre y (List.mem_cons_of_mem a hy)) r hr hmiss
    have hne : pre2 ++ e :: rest ≠ [] := by simp
    show Diag.romNotFound k r.name e.name ∈
      (hashWalk false k excl lookup (a :: (pre2 ++ e :: rest))).2
    rw [hashWalk_cons_step false k excl lookup a (pre2 ++ e :: rest) ha hra hne]
    exact List.mem_append.mpr (Or.inr htail)

/-- C5: over a family the exclude-after patterns leave alone, the hash walk
(a) selects exactly the first candidate with at least one resolvable file
(partial success counts as resolved, a candidate with zero resolved files
is skipped), (b) when every candidate has zero resolvable files it selects
nothing and emits exactly one final no-eligible-candidates diagnostic, and
(c) every declared file of a reached candidate whose digest maps to no path
yields its own diagnostic. -/
theorem hash_resolution_walk_spec
    (gameKey : String) (excl : List (String → Bool)) (lookup : String → String)
    (es : List GameEntry)
    (hex : ∀ e ∈ es, check_in_pattern_list e.name excl = false) :
    ((hashWalk false gameKey excl lookup es).1 = es.find? (entryResolved lookup))
    ∧ (es ≠ [] → (∀ e ∈ es, entryResolved lookup e = false) →
        (hashWalk false gameKey excl lookup es).1 = none ∧
        (hashWalk false gameKey excl lookup es).2.count (Diag.noEligible gameKey) = 1)
    ∧ (∀ pre (e : GameEntry) rest, es = pre ++ e :: rest →
        (∀ x ∈ pre, entryResolved lookup x = false) →
        ∀ r ∈ e.roms, lookup (lowerStr r.sha1) = "" →
        Diag.romNotFound gameKey r.name e.name ∈ (hashWalk false gameKey excl lookup es).2) := by
  refine ⟨hashWalk_fst gameKey excl lookup es hex, ?_, ?_⟩
  · intro hne hall
    refine ⟨?_, hashWalk_noElig gameKey excl lookup es hne hex hall⟩
    rw [hashWalk_fst gameKey excl lookup es hex]
    rw [List.find?_eq_none]
    intro x hx
    simp [hall x hx]
  · intro pre e rest heq hpre r hr hmiss
    subst heq
    exact hashWalk_romDiag gameKey excl lookup pre e rest hex hpre r hr hmiss

/-- Witness for C5: a two-candidate family where only the second candidate
has a resolvable file. -/
theorem hash_resolution_walk_spec_witness :
    (hashWalk false "Fam" [] (fun d => if d = "cc" then "x" else "") [eGood, eTail]).1 =
      [eGood, eTail].find? (entryResolved (fun d => if d = "cc" then "x" else "")) :=
  (hash_resolution_walk_spec "Fam" [] (fun d => if d = "cc" then "x" else "")
    [eGood, eTail] (by decide)).1

-- ### C10: the hash index is total on the catalog digests

theorem dictGet?_dictSet_self (d : List (String × String)) (k v : String) :
    dictGet? (dictSet d k v) k = some v := by
  induction d with
  | nil => simp [dictSet, dictGet?]
  | cons p ps ih =>
    by_cases h : p.1 = k
    · simp [dictSet, h, dictGet?]
    · simp [dictSet, h, dictGet?, ih]

theorem dictGet?_dictSet_ne (d : List (String × String)) (k v k' : String)
    (h : ¬ k' = k) : dictGet? (dictSet d k v) k' = dictGet? d k' := by
  have hne : ¬ k = k' := fun hh => h hh.symm
  induction d with
  | nil => simp [dictSet, dictGet?, hne]
  | cons p ps ih =>
    by_cases hp : p.1 = k
    · subst hp
      have hne2 : ¬ p.1 = k' := hne
      simp [dictSet, dictGet?, hne2]
    · simp [dictSet, hp, dictGet?, ih]

theorem isSome_dictSet (d : List (String × String)) (k k1 v : String)
    (h : (dictGet? d k).isSome = true) :
    (dictGet? (dictSet d k1 v) k).isSome = true := by
  by_cases hk : k = k1
  · subst hk; simp [dictGet?_dictSet_self]
  · rw [dictGet?_dictSet_ne d k1 v k hk]; exact h

theorem seedRomFold_isSome (k : String) :
    ∀ (roms : List Rom) (d : List (String × String)),
    ((∃ r ∈ roms, lowerStr r.sha1 = k) ∨ (dictGet? d k).isSome = true) →
    (dictGet? (roms.foldl (fun d2 r => dictSet d2 (lowerStr r.sha1) "") d) k).isSome = true := by
  intro roms
  induction roms with
  | nil =>
    intro d h
    rcases h with ⟨r, hr, -⟩ | h
    · cases hr
    · exact h
  | cons r rs ih =>
    intro d h
    simp only [List.foldl_cons]
    apply ih
    rcases h with ⟨r2, hr2, hk⟩ | h
    · rcases List.mem_cons.mp hr2 with h2 | h2
      · subst h2
        right
        rw [← hk]
        simp [dictGet?_dictSet_self]
      · exact Or.inl ⟨r2, h2, hk⟩
    · exact Or.inr (isSome_dictSet d k (lowerStr r.sha1) "" h)

theorem seedIndex_isSome (k : String) :
    ∀ (games : List Game) (d : List (String × String)),
    ((∃ g ∈ games, ∃ r ∈ g.rom, lowerStr r.sha1 = k) ∨ (dictGet? d k).isSome = true) →
    (dictGet? (games.foldl
      (fun d g => g.rom.foldl (fun d2 r => dictSet d2 (lowerStr r.sha1) "") d) d) k).isSome
      = true := by
  intro games
  induction games with
  | nil =>
    intro d h
    rcases h with ⟨g, hg, -⟩ | h
    · cases hg
    · exact h
  | cons g gs ih =>
    intro d h
    simp only [List.foldl_cons]
    apply ih
    rcases h with ⟨g2, hg2, hr⟩ | h
    · rcases List.mem_cons.mp hg2 with h2 | h2
      · rw [h2] at hr
        exact Or.inr (seedRomFold_isSome k g.rom d (Or.inl hr))
      · exact Or.inl ⟨g2, h2, hr⟩
    · exact Or.inr (seedRomFold_isSome k g.rom d (Or.inr h))

theorem seedRomFold_getD (k : String) :
    ∀ (roms : List Rom) (d : List (String × String)),
    (dictGet? (roms.foldl (fun d2 r => dictSet d2 (lowerStr r.sha1) "") d) k = dictGet? d k)
    ∨ (dictGet? (roms.foldl (fun d2 r => dictSet d2 (lowerStr r.sha1) "") d) k = some "") := by
  intro roms
  induction roms with
  | nil => intro d; exact Or.inl rfl
  | cons r rs ih =>
    intro d
    simp only [List.foldl_cons]
    rcases ih (dictSet d (lowerStr r.sha1) "") with h | h
    · by_cases hk : k = lowerStr r.sha1
      · subst hk
        right
        rw [h, dictGet?_dictSet_self]
      · left
        rw [h, dictGet?_dictSet_ne d (lowerStr r.sha1) "" k hk]
    · exact Or.inr h

theorem seedIndex_getD (k : String) :
    ∀ (games : List Game) (d : List (String × String)),
    (dictGet? (games.foldl
        (fun d g => g.rom.foldl (fun d2 r => dictSet d2 (lowerStr r.sha1) "") d) d) k
      = dictGet? d k)
    ∨ (dictGet? (games.foldl
        (fun d g => g.rom.foldl (fun d2 r => dictSet d2 (lowerStr r.sha1) "") d) d) k
      = some "") := by
  intro games
  induction games with
  | nil => intro d; exact Or.inl rfl
  | cons g gs ih =>
    intro d
    simp only [List.foldl_cons]
    rcases ih (g.rom.foldl (fun d2 r => dictSet d2 (lowerStr r.sha1) "") d) with h | h
    · rcases seedRomFold_getD k g.rom d with h2 | h2
      · exact Or.inl (h.trans h2)
      · exact Or.inr (h.trans h2)
    · exact Or.inr h

theorem mergeOne_isSome (k : String) :
    ∀ (inter res : List (String × String)),
    (dictGet? res k).isSome = true → (dictGet? (mergeOne res inter) k).isSome = true := by
  intro inter
  induction inter with
  | nil => intro res h; exact h
  | cons kv rest ih =>
    intro res h
    unfold mergeOne
    simp only [List.foldl_cons]
    show (dictGet? (mergeOne
      (if dictMem res kv.1 && !is_zip ((dictGet? res kv.1).getD "") then
        dictSet res kv.1 kv.2 else res) rest) k).isSome = true
    apply ih
    by_cases hc : (dictMem res kv.1 && !is_zip ((dictGet? res kv.1).getD "")) = true
    · rw [if_pos hc]
      exact isSome_dictSet res k kv.1 kv.2 h
    · rw [if_neg hc]
      exact h

theorem mergeOne_miss (k : String) :
    ∀ (inter res : List (String × String)),
    dictGet? inter k = none → dictGet? (mergeOne res inter) k = dictGet? res k := by
  intro inter
  induction inter with
  | nil => intro res _; rfl
  | cons kv rest ih =>
    intro res h
    have hk : ¬ kv.1 = k := by
      intro he
      simp [dictGet?, he] at h
    have ht : dictGet? rest k = none := by
      simpa [dictGet?, hk] using h
    unfold mergeOne
    simp only [List.foldl_cons]
    show dictGet? (mergeOne
      (if dictMem res kv.1 && !is_zip ((dictGet? res kv.1).getD "") then
        dictSet res kv.1 kv.2 else res) rest) k = dictGet? res k
    rw [ih _ ht]
    by_cases hc : (dictMem res kv.1 && !is_zip ((dictGet? res kv.1).getD "")) = true
    · rw [if_pos hc]
      exact dictGet?_dictSet_ne res kv.1 kv.2 k (fun he => hk he.symm)
    · rw [if_neg hc]

theorem mergeAll_isSome (k : String) :
    ∀ (inters : List (List (String × String))) (seed : List (String × String)),
    (dictGet? seed k).isSome = true →
    (dictGet? (mergeAll seed inters) k).isSome = true := by
  intro inters
  induction inters with
  | nil => intro seed h; exact h
  | cons i rest ih =>
    intro seed h
    exact ih (mergeOne seed i) (mergeOne_isSome k i seed h)

theorem mergeAll_miss (k : String) :
    ∀ (inters : List (List (String × String))) (seed : List (String × String)),
    (∀ d ∈ inters, dictGet? d k = none) →
    dictGet? (mergeAll seed inters) k = dictGet? seed k := by
  intro inters
  induction inters with
  | nil => intro seed _; rfl
  | cons i rest ih =>
    intro seed h
    have h1 : dictGet? (mergeAll (mergeOne seed i) rest) k = dictGet? (mergeOne seed i) k :=
      ih (mergeOne seed i) (fun d hd => h d (List.mem_cons_of_mem i hd))
    show dictGet? (mergeAll (mergeOne seed i) rest) k = dictGet? seed k
    rw [h1, mergeOne_miss k i seed (h i (by simp))]

theorem gameEntriesOf_roms (cfg : FilterCfg) (tbl : List RegionData) (i : Nat)
    (g : Game) (e : GameEntry) (he : e ∈ (gameEntriesOf cfg tbl i g).1) :
    e.roms = g.rom := by
  unfold gameEntriesOf at he
  by_cases hd : droppedByFilters cfg g.name = true
  · rw [if_pos hd] at he
    cases he
  · rw [if_neg hd] at he
    simp only at he
    obtain ⟨rd, -, heq⟩ := List.mem_map.mp he
    rw [← heq]
    rfl

theorem parseGamesAux_roms (cfg : FilterCfg) :
    ∀ (gs : List Game) (i : Nat) (tbl : List RegionData) (e : GameEntry),
    e ∈ parseGamesAux cfg gs i tbl → ∃ g ∈ gs, e.roms = g.rom := by
  intro gs
  induction gs with
  | nil => intro i tbl e he; cases he
  | cons g rest ih =>
    intro i tbl e he
    rcases List.mem_append.mp he with h1 | h1
    · exact ⟨g, by simp, gameEntriesOf_roms cfg tbl i g e h1⟩
    · obtain ⟨g2, hg2, hr⟩ := ih (i + 1) (gameEntriesOf cfg tbl i g).2 e h1
      exact ⟨g2, List.mem_cons_of_mem g hg2, hr⟩

/-- C10: whenever hash-based resolution is active, the index built by
`index_files` carries a key for the lowercased SHA1 digest of every ROM of
every candidate `parse_games` produces — mapped to the empty string when no
per-file result supplied that digest — so the unguarded `hash_index[digest]`
lookup of the selection loop never fails. -/
theorem hash_index_total_on_catalog
    (cfg : FilterCfg) (games : List Game) (inters : List (List (String × String)))
    (e : GameEntry) (r : Rom)
    (he : e ∈ parse_games cfg games) (hr : r ∈ e.roms) :
    ∃ v, dictGet? (indexFilesResult games inters) (lowerStr r.sha1) = some v ∧
      ((∀ d ∈ inters, dictGet? d (lowerStr r.sha1) = none) → v = "") := by
  obtain ⟨g, hg, hroms⟩ := parseGamesAux_roms cfg games 0 regionTable e he
  have hseeded : (dictGet? (seedIndex games) (lowerStr r.sha1)).isSome = true := by
    unfold seedIndex
    exact seedIndex_isSome (lowerStr r.sha1) games []
      (Or.inl ⟨g, hg, r, by rw [← hroms]; exact hr, rfl⟩)
  have hsome : (dictGet? (indexFilesResult games inters) (lowerStr r.sha1)).isSome = true :=
    mergeAll_isSome (lowerStr r.sha1) inters (seedIndex games) hseeded
  obtain ⟨v, hv⟩ := Option.isSome_iff_exists.mp hsome
  refine ⟨v, hv, ?_⟩
  intro hmiss
  have h1 : dictGet? (indexFilesResult games inters) (lowerStr r.sha1) =
      dictGet? (seedIndex games) (lowerStr r.sha1) :=
    mergeAll_miss (lowerStr r.sha1) inters (seedIndex games) hmiss
  rcases seedIndex_getD (lowerStr r.sha1) games [] with h2 | h2
  · rw [show dictGet? ([] : List (String × String)) (lowerStr r.sha1) = none from rfl] at h2
    rw [h1] at hv
    unfold seedIndex at hv
    rw [h2] at hv
    cases hv
  · rw [h1] at hv
    unfold seedIndex at hv
    rw [h2] at hv
    cases hv
    rfl

/-- Witness for C10 on a one-item catalog with no repository files. -/
theorem hash_index_total_on_catalog_witness :
    ∃ v, dictGet? (indexFilesResult datD []) (lowerStr "D") = some v ∧
      ((∀ d ∈ ([] : List (List (String × String))), dictGet? d (lowerStr "D") = none) →
        v = "") := by
  have h := hash_index_total_on_catalog cfg0 datD []
    (⟨false, false, "USA", ["en"], 0, "0", "0", "Z", "Z", "Z", "Z", true,
      "Game (USA)", [⟨"g.rom", "D"⟩]⟩ : GameEntry) ⟨"g.rom", "D"⟩
    (by decide) (by decide)
  exact h

-- ### C8: region detection and candidate expansion

/-- C8: counter to the claim, an item whose name matches the same region
entry in two different parenthesized segments expands into one candidate
per match occurrence, not per matched region code: `(Japan) (World)`
produces the region list `JPN, EUR, JPN, USA` with two `JPN` candidates. -/
theorem region_expansion_duplicate_cx :
    ((gameEntriesOf cfg0 regionTable 0 gameJW).1.map (fun e => e.region))
      = ["JPN", "EUR", "JPN", "USA"] ∧
    (((gameEntriesOf cfg0 regionTable 0 gameJW).1.map (fun e => e.region)).count "JPN" = 2)
    := by decide

/-- C8 (amended): tokens are matched fully (not partially) and
case-insensitively against each region entry, a token may match several
entries (`World` yields EUR, JPN and USA; `World Tour` yields nothing), and
an item without declared releases expands into exactly one candidate per
region-match occurrence — duplicates included when the same region matches
in several segments — all candidates sharing every attribute but the
region code. -/
theorem region_expansion_per_match
    (tbl : List RegionData) (i : Nat) (g : Game) (hrel : g.release = []) :
    ((gameEntriesOf cfg0 tbl i g).1
      = (parse_region_data g.name).map (fun rd => mkEntryFor g i (gameLangs g) rd.code))
    ∧ ((gameEntriesOf cfg0 tbl i g).1.map (fun e => e.region)
      = (parse_region_data g.name).map (fun rd => rd.code))
    ∧ ((parse_region_data "Game (World)").map (fun rd => rd.code) = ["EUR", "JPN", "USA"])
    ∧ parse_region_data "Game (World Tour)" = [] := by
  have hdrop : droppedByFilters cfg0 g.name = false := by
    simp [droppedByFilters, cfg0, check_in_pattern_list]
  have h1 : (gameEntriesOf cfg0 tbl i g).1
      = (parse_region_data g.name).map (fun rd => mkEntryFor g i (gameLangs g) rd.code) := by
    unfold gameEntriesOf
    rw [if_neg (by rw [hdrop]; simp)]
    rw [hrel]
    show ((parse_region_data g.name).map (fun rd => mkEntryFor g i
      (if (parse_languages g.name).isEmpty
        then get_languages (parse_region_data g.name)
        else parse_languages g.name) rd.code)) = _
    rw [gameLangs]
  refine ⟨h1, ?_, by decide, by decide⟩
  rw [h1, List.map_map]
  rfl

/-- Witness for the amended C8 on the `World` item. -/
theorem region_expansion_per_match_witness :
    (gameEntriesOf cfg0 regionTable 0 gameWorld).1
      = (parse_region_data gameWorld.name).map
          (fun rd => mkEntryFor gameWorld 0 (gameLangs gameWorld) rd.code) :=
  (region_expansion_per_match regionTable 0 gameWorld (by decide)).1

-- ### C3: family-wide padding versus numeric comparison

theorem cmpInt_lt_iff {a b : Int} : cmpInt a b = .lt ↔ a < b := by
  unfold cmpInt
  split_ifs with h1 h2
  · simp [h1]
  · exact iff_of_false (by simp) h1
  · exact iff_of_false (by simp) h1

theorem cmpInt_gt_iff {a b : Int} : cmpInt a b = .gt ↔ b < a := by
  unfold cmpInt
  split_ifs with h1 h2
  · exact iff_of_false (by simp) (by omega)
  · exact iff_of_false (by simp) (by omega)
  · exact iff_of_true rfl (by omega)

theorem cmpInt_eq_iff {a b : Int} : cmpInt a b = .eq ↔ a = b := by
  unfold cmpInt
  split_ifs with h1 h2
  · exact iff_of_false (by simp) (by omega)
  · exact iff_of_true rfl h2
  · exact iff_of_false (by simp) (by omega)

theorem isDigitC_bounds {c : Char} (h : isDigitC c = true) :
    48 ≤ c.toNat ∧ c.toNat ≤ 57 := by
  unfold isDigitC at h
  simp at h
  omega

theorem natOfDigits_lt_pow (cs : List Char) (h : ∀ c ∈ cs, isDigitC c = true) :
    natOfDigits cs < 10 ^ cs.length := by
  induction cs with
  | nil => simp [natOfDigits]
  | cons c cs2 ih =>
    have hd : c.toNat - 48 ≤ 9 := by
      have := isDigitC_bounds (h c (by simp))
      omega
    have hr := ih (fun x hx => h x (List.mem_cons_of_mem c hx))
    simp only [natOfDigits, List.length_cons]
    have hpow : 10 ^ (cs2.length + 1) = 10 * 10 ^ cs2.length := by ring
    rw [hpow]
    have h9 : (c.toNat - 48) * 10 ^ cs2.length ≤ 9 * 10 ^ cs2.length :=
      Nat.mul_le_mul_right _ hd
    generalize hX : (c.toNat - 48) * 10 ^ cs2.length = X at h9
    omega

theorem natOfDigits_replicate_zero (k : Nat) (cs : List Char) :
    natOfDigits (List.replicate k '0' ++ cs) = natOfDigits cs := by
  induction k with
  | zero => simp
  | succ n ih =>
    have hz : ('0' : Char).toNat = 48 := rfl
    simp only [List.replicate_succ, List.cons_append, List.append_eq, natOfDigits, ih, hz]
    omega

theorem natOfDigits_leftPad (w : Nat) (cs : List Char) :
    natOfDigits (leftPad w cs) = natOfDigits cs :=
  natOfDigits_replicate_zero (w - cs.length) cs

theorem leftPad_length {w : Nat} {cs : List Char} (h : cs.length ≤ w) :
    (leftPad w cs).length = w := by
  simp [leftPad]
  omega

theorem leftPad_digits {w : Nat} {cs : List Char} (h : ∀ c ∈ cs, isDigitC c = true) :
    ∀ c ∈ leftPad w cs, isDigitC c = true := by
  intro c hc
  rcases List.mem_append.mp hc with h1 | h1
  · rw [List.eq_of_mem_replicate h1]
    rfl
  · exact h c h1

theorem natOfDigits_head_lt {c d : Char} {u v : List Char}
    (hl : u.length = v.length) (hu : ∀ x ∈ u, isDigitC x = true)
    (hc : 48 ≤ c.toNat) (hcd : c.toNat < d.toNat) :
    natOfDigits (c :: u) < natOfDigits (d :: v) := by
  simp only [natOfDigits, hl]
  have hA : natOfDigits u < 10 ^ u.length := natOfDigits_lt_pow u hu
  rw [hl] at hA
  have hstep : c.toNat - 48 + 1 ≤ d.toNat - 48 := by omega
  calc (c.toNat - 48) * 10 ^ v.length + natOfDigits u
      < (c.toNat - 48) * 10 ^ v.length + 10 ^ v.length := by omega
    _ = (c.toNat - 48 + 1) * 10 ^ v.length := by ring
    _ ≤ (d.toNat - 48) * 10 ^ v.length := Nat.mul_le_mul_right _ hstep
    _ ≤ (d.toNat - 48) * 10 ^ v.length + natOfDigits v := Nat.le_add_right _ _

theorem cmpIntList_negKey :
    ∀ (u v : List Char), u.length = v.length →
    (∀ c ∈ u, isDigitC c = true) → (∀ c ∈ v, isDigitC c = true) →
    (cmpIntList (u.map (fun c => -(c.toNat : Int))) (v.map (fun c => -(c.toNat : Int))) = .lt
      ↔ natOfDigits v < natOfDigits u) := by
  intro u
  induction u with
  | nil =>
    intro v hlen _ _
    cases v with
    | nil => simp [cmpIntList, natOfDigits]
    | cons d v2 => simp at hlen
  | cons c u2 ih =>
    intro v hlen hu hv
    cases v with
    | nil => simp at hlen
    | cons d v2 =>
      have hlen2 : u2.length = v2.length := by simpa using hlen
      have hcb := isDigitC_bounds (hu c (by simp))
      have hdb := isDigitC_bounds (hv d (by simp))
      have hu2 : ∀ x ∈ u2, isDigitC x = true := fun x hx => hu x (List.mem_cons_of_mem c hx)
      have hv2 : ∀ x ∈ v2, isDigitC x = true := fun x hx => hv x (List.mem_cons_of_mem d hx)
      simp only [List.map_cons, cmpIntList]
      rcases Nat.lt_trichotomy c.toNat d.toNat with h1 | h1 | h1
      · have hcmp : cmpInt (-(c.toNat : Int)) (-(d.toNat : Int)) = .gt := by
          rw [cmpInt_gt_iff]
          push_cast
          omega
        rw [hcmp]
        refine iff_of_false ?_ ?_
        · intro hbad
          simpa [Ordering.then] using hbad
        · have := natOfDigits_head_lt hlen2 hu2 hcb.1 h1
          omega
      · have hcmp : cmpInt (-(c.toNat : Int)) (-(d.toNat : Int)) = .eq := by
          rw [cmpInt_eq_iff]
          push_cast
          omega
        rw [hcmp]
        have hthen : (Ordering.eq.then
            (cmpIntList (u2.map (fun c => -(c.toNat : Int)))
              (v2.map (fun c => -(c.toNat : Int))))) =
            cmpIntList (u2.map (fun c => -(c.toNat : Int)))
              (v2.map (fun c => -(c.toNat : Int))) := rfl
        rw [hthen, ih v2 hlen2 hu2 hv2]
        simp only [natOfDigits, hlen2, h1]
        omega
      · have hcmp : cmpInt (-(c.toNat : Int)) (-(d.toNat : Int)) = .lt := by
          rw [cmpInt_lt_iff]
          push_cast
          omega
        rw [hcmp]
        refine iff_of_true rfl ?_
        have hv2l : v2.length = u2.length := hlen2.symm
        exact natOfDigits_head_lt hv2l hv2 hdb.1 h1

theorem tokenizeRuns_cons (c : Char) (cs : List Char) :
    tokenizeRuns (c :: cs) =
      match tokenizeRuns cs with
      | (b, run) :: rest =>
        if isDigitC c = b then (b, c :: run) :: rest
        else (isDigitC c, [c]) :: (b, run) :: rest
      | [] => [(isDigitC c, [c])] := rfl

theorem tokenizeRuns_digits :
    ∀ (cs : List Char), cs ≠ [] → (∀ c ∈ cs, isDigitC c = true) →
    tokenizeRuns cs = [(true, cs)] := by
  intro cs
  induction cs with
  | nil => intro h; exact absurd rfl h
  | cons c cs2 ih =>
    intro _ h
    have hc : isDigitC c = true := h c (by simp)
    cases cs2 with
    | nil => simp [tokenizeRuns, hc]
    | cons c2 cs3 =>
      have ht := ih (by simp) (fun x hx => h x (List.mem_cons_of_mem c hx))
      rw [tokenizeRuns_cons, ht]
      simp [hc]

theorem runLengths_digits (s : String) (hne : s.data ≠ [])
    (h : ∀ c ∈ s.data, isDigitC c = true) :
    runLengths s = [s.data.length] := by
  unfold runLengths
  rw [tokenizeRuns_digits s.data hne h]
  rfl

theorem widths_fold_digits :
    ∀ (l : List String) (w : Nat),
    (∀ s ∈ l, runLengths s = [s.data.length]) →
    l.foldl (fun acc s => zipMax acc (runLengths s)) [w]
      = [l.foldl (fun m s => max m s.data.length) w] := by
  intro l
  induction l with
  | nil => intro w _; rfl
  | cons a l2 ih =>
    intro w h
    simp only [List.foldl_cons]
    rw [h a (by simp)]
    show (l2.foldl (fun acc s => zipMax acc (runLengths s)) [max w a.data.length]) = _
    exact ih (max w a.data.length) (fun s hs => h s (List.mem_cons_of_mem a hs))

theorem fieldWidths_digits (ss : List String) (hne : ss ≠ [])
    (h : ∀ s ∈ ss, s.data ≠ [] ∧ ∀ c ∈ s.data, isDigitC c = true) :
    fieldWidths ss = [famWidth ss] := by
  cases ss with
  | nil => exact absurd rfl hne
  | cons s0 rest =>
    unfold fieldWidths famWidth
    simp only [List.foldl_cons]
    have h0 := h s0 (by simp)
    have hz : zipMax [] (runLengths s0) = runLengths s0 := by
      cases hr : runLengths s0 with
      | nil => rfl
      | cons a l => rfl
    rw [hz, runLengths_digits s0 h0.1 h0.2]
    have hmax : max 0 s0.data.length = s0.data.length := by omega
    rw [widths_fold_digits rest s0.data.length
      (fun s hs => runLengths_digits s (h s (List.mem_cons_of_mem s0 hs)).1
        (h s (List.mem_cons_of_mem s0 hs)).2), hmax]

theorem foldl_max_le_start : ∀ (l : List String) (w : Nat),
    w ≤ l.foldl (fun m s => max m s.data.length) w := by
  intro l
  induction l with
  | nil => intro w; exact Nat.le_refl w
  | cons a l2 ih =>
    intro w
    simp only [List.foldl_cons]
    exact Nat.le_trans (Nat.le_max_left w a.data.length) (ih (max w a.data.length))

theorem foldl_max_mem {s : String} : ∀ (l : List String) (w : Nat), s ∈ l →
    s.data.length ≤ l.foldl (fun m s => max m s.data.length) w := by
  intro l
  induction l with
  | nil => intro w h; cases h
  | cons a l2 ih =>
    intro w h
    simp only [List.foldl_cons]
    rcases List.mem_cons.mp h with h1 | h1
    · subst h1
      exact Nat.le_trans (Nat.le_max_right w s.data.length)
        (foldl_max_le_start l2 (max w s.data.length))
    · exact ih (max w a.data.length) h1

theorem le_famWidth {ss : List String} {s : String} (h : s ∈ ss) :
    s.data.length ≤ famWidth ss :=
  foldl_max_mem ss 0 h

theorem add_padding_digits (ss : List String) (hne : ss ≠ [])
    (h : ∀ s ∈ ss, s.data ≠ [] ∧ ∀ c ∈ s.data, isDigitC c = true) :
    add_padding ss = ss.map (fun s => String.mk (leftPad (famWidth ss) s.data)) := by
  unfold add_padding
  rw [fieldWidths_digits ss hne h]
  apply List.map_congr_left
  intro s hs
  rw [tokenizeRuns_digits s.data (h s hs).1 (h s hs).2]
  show String.mk (renderRuns [(true, leftPad (famWidth ss) s.data)]) = _
  simp [renderRuns, listFlat]

theorem to_int_list_neg_one (s : String) :
    to_int_list s (-1) = s.data.map (fun c => -(c.toNat : Int)) := by
  simp [to_int_list]

/-- C3: counter to the claim, comparison of the padded vectors is NOT
equivalent to numeric comparison of the original tag fields for every
family: in the family of revision tags `1` and `1.05`, padding changes
neither tag, the padded-vector comparison ranks `1` strictly better
(earlier in the ascending key order) than `1.05` under latest-preferred
inversion, yet the numeric field vectors compare `[1] < [1, 5]`, so the
numerically later `1.05` should have ranked better. -/
theorem revision_padding_cx :
    add_padding ["1", "1.05"] = ["1", "1.05"] ∧
    cmpIntList (to_int_list "1" (-1)) (to_int_list "1.05" (-1)) = .lt ∧
    fieldVals "1" = [1] ∧ fieldVals "1.05" = [1, 5] ∧
    cmpIntList (fieldVals "1") (fieldVals "1.05") = .lt := by decide

/-- C3 (amended): for families of single-field tags (pure digit strings,
such as all `Rev` numbers), family-wide padding is exactly left zero-padding
to the family maximum width, and comparison of the inverted padded vectors
coincides with numeric comparison of the original tags; concretely, in the
parsed and padded `Rev 2` / `Rev 10` family, the `Rev 10` candidate
outranks the `Rev 2` candidate under the default configuration. -/
theorem revision_padding_numeric_equiv :
    (∀ (ss : List String), (∀ s ∈ ss, s.data ≠ [] ∧ ∀ c ∈ s.data, isDigitC c = true) →
      (ss ≠ [] → add_padding ss = ss.map (fun s => String.mk (leftPad (famWidth ss) s.data)))
      ∧ ∀ a b, a ∈ ss → b ∈ ss →
        (cmpIntList (to_int_list (String.mk (leftPad (famWidth ss) b.data)) (-1))
                    (to_int_list (String.mk (leftPad (famWidth ss) a.data)) (-1)) = .lt
          ↔ natOfDigits a.data < natOfDigits b.data))
    ∧ compareEntries cfgDefault (famRev.getD 1 dummyE, scRev (famRev.getD 1 dummyE))
        (famRev.getD 0 dummyE, scRev (famRev.getD 0 dummyE)) = .lt := by
  constructor
  · intro ss hss
    constructor
    · intro hne
      exact add_padding_digits ss hne hss
    · intro a b ha hb
      have hpa := hss a ha
      have hpb := hss b hb
      rw [to_int_list_neg_one, to_int_list_neg_one]
      have hdata : ∀ (cs : List Char), (String.mk cs).data = cs := fun _ => rfl
      rw [hdata, hdata]
      have hiff := cmpIntList_negKey (leftPad (famWidth ss) b.data)
        (leftPad (famWidth ss) a.data)
        (by rw [leftPad_length (le_famWidth hb), leftPad_length (le_famWidth ha)])
        (leftPad_digits hpb.2) (leftPad_digits hpa.2)
      rw [hiff, natOfDigits_leftPad, natOfDigits_leftPad]
  · decide

/-- Witness for the amended C3 on the family of revision tags `2`, `10`. -/
theorem revision_padding_numeric_equiv_witness :
    cmpIntList (to_int_list (String.mk (leftPad (famWidth ["2", "10"]) "10".data)) (-1))
        (to_int_list (String.mk (leftPad (famWidth ["2", "10"]) "2".data)) (-1)) = .lt
      ↔ natOfDigits "2".data < natOfDigits "10".data :=
  ((revision_padding_numeric_equiv.1 ["2", "10"] (by decide)).2 "2" "10"
    (by decide) (by decide))

end Gen
